import Mathlib

/-!
Shallow embedding of the `rod_map` crate: self-cleaning concurrent maps
(`RodBTreeMap` / `RodHashMap`, synchronous and asynchronous variants).

The state of a map is modelled explicitly:
* guard allocations (`Arc<RodGuard<K, V>>`) are numbered by allocation order
  (`next` is the next fresh id); each live allocation records its shared key,
  its stored value and its strong reference count;
* the index (`BTreeSet<RodEntry>` resp. `HashSet<RodEntry>`) is a list of
  pairs `(key, guard id)` — an entry's weak link is the id of the guard
  allocation it was created with;
* the ordered index is kept sorted by key and searched with early exit,
  mirroring tree search; the hashed index is an unordered unique-key list.

`std::collections::BTreeSet::insert` and `HashSet::insert` do NOT replace an
element that compares equal to one already present: the old element is
retained and `false` is returned.  The embedding follows that semantics.

Dropping the last strong handle runs `RodGuard::drop`: it acquires the index
lock exclusively, removes the entry by key, releases the lock, and only then
are the struct fields (the value) destroyed.  `release` returns the list of
these teardown events so the order can be stated.
-/

namespace RodMap

/-- A live `Arc<RodGuard<K, V>>` allocation: the shared key (`key: Arc<K>`),
the stored value, and the strong reference count of the `Arc`. -/
structure GuardInfo (K V : Type) where
  key : K
  value : V
  strong : Nat
deriving DecidableEq, Repr

/-- State of one rod map: the index of entries `(key, guard id)`, the live
guard allocations `(id, info)`, and the next fresh allocation id. -/
structure RodState (K V : Type) where
  index : List (K × Nat)
  guards : List (Nat × GuardInfo K V)
  next : Nat
deriving DecidableEq, Repr

/-- Look up a guard allocation by id (models following a `Weak`/`Arc`). -/
def guardFind {K V : Type} : List (Nat × GuardInfo K V) → Nat → Option (GuardInfo K V)
  | [], _ => none
  | p :: rest, g => if p.1 = g then some p.2 else guardFind rest g

/-- Overwrite the record of guard allocation `g` (used to adjust its strong
count, modelling `Arc` clone / upgrade / drop). -/
def guardSet {K V : Type} : List (Nat × GuardInfo K V) → Nat → GuardInfo K V →
    List (Nat × GuardInfo K V)
  | [], _, _ => []
  | p :: rest, g, info => if p.1 = g then (g, info) :: rest else p :: guardSet rest g info

/-- Deallocate guard allocation `g` (the value's storage is destroyed). -/
def guardRemove {K V : Type} : List (Nat × GuardInfo K V) → Nat →
    List (Nat × GuardInfo K V)
  | [], _ => []
  | p :: rest, g => if p.1 = g then rest else p :: guardRemove rest g

section BTreeIndex

variable {K : Type} [LinearOrder K]

/-- `BTreeSet::insert` on the entry set, searching by key order.  When an
entry with an equal key is already present the set keeps the OLD entry and
the new one is discarded (`insert` returns `false` and does not update). -/
def btreeInsert : List (K × Nat) → K → Nat → List (K × Nat)
  | [], k, g => [(k, g)]
  | e :: rest, k, g =>
    if k < e.1 then (k, g) :: e :: rest
    else if k = e.1 then e :: rest
    else e :: btreeInsert rest k g

/-- `BTreeSet::get` by borrowed key: ordered search for the entry's weak
link. -/
def btreeGet : List (K × Nat) → K → Option Nat
  | [], _ => none
  | e :: rest, k =>
    if k < e.1 then none
    else if k = e.1 then some e.2
    else btreeGet rest k

/-- `BTreeSet::remove` by borrowed key. -/
def btreeRemove : List (K × Nat) → K → List (K × Nat)
  | [], _ => []
  | e :: rest, k =>
    if k < e.1 then e :: rest
    else if k = e.1 then rest
    else e :: btreeRemove rest k

end BTreeIndex

section HashIndex

variable {K : Type} [DecidableEq K]

/-- `HashSet::get` by borrowed key: search by key equality. -/
def hashGet : List (K × Nat) → K → Option Nat
  | [], _ => none
  | e :: rest, k => if e.1 = k then some e.2 else hashGet rest k

/-- `HashSet::insert`: when an entry with an equal key is already present the
old entry is retained and the new one discarded; otherwise the new entry is
added. -/
def hashInsert (l : List (K × Nat)) (k : K) (g : Nat) : List (K × Nat) :=
  if (hashGet l k).isSome then l else (k, g) :: l

/-- `HashSet::remove` by borrowed key: removes the (unique) equal entry. -/
def hashRemove : List (K × Nat) → K → List (K × Nat)
  | [], _ => []
  | e :: rest, k => if e.1 = k then rest else e :: hashRemove rest k

end HashIndex

/-- The index of the ordered variant is sorted strictly by key (`BTreeSet`
over entries ordered by their key). -/
abbrev KeySorted {K : Type} [LinearOrder K] (l : List (K × Nat)) : Prop :=
  List.Pairwise (fun a b : K × Nat => a.1 < b.1) l

/-- Observable micro-events of `RodGuard::drop` (the teardown hook): acquire
the write lock, remove the entry by key, release the lock, destroy the
value. -/
inductive Event (K : Type) where
  | lockExclusive
  | removeEntry (k : K)
  | unlock
  | destroyValue (g : Nat)
deriving DecidableEq, Repr

namespace RodBTreeMap

variable {K V : Type} [LinearOrder K]

/-- `RodBTreeMap::new`. -/
def new : RodState K V := ⟨[], [], 0⟩

/-- `RodBTreeMap::len`: size of the index, read under the shared lock. -/
def len (s : RodState K V) : Nat := s.index.length

/-- `RodBTreeMap::is_empty`: emptiness of the index, read under the shared
lock. -/
def isEmpty (s : RodState K V) : Bool := s.index.isEmpty

/-- `RodBTreeMap::insert`: build a fresh guard (strong count 1) and an entry
holding a weak link to it, insert the entry into the set under the exclusive
lock, return the guard.  Returns `(new state, id of the returned handle)`. -/
def insert (s : RodState K V) (k : K) (v : V) : RodState K V × Nat :=
  (⟨btreeInsert s.index k s.next, (s.next, ⟨k, v, 1⟩) :: s.guards, s.next + 1⟩, s.next)

/-- `RodBTreeMap::get`: under the shared lock, look the entry up by key; if
present, upgrade its weak link (`RodEntry::get`), which increments the strong
count and yields a fresh handle.  An upgrade failure is the `.expect` panic,
modelled as an `Except.error` carrying the panic message. -/
def get (s : RodState K V) (k : K) : RodState K V × Except String (Option Nat) :=
  match btreeGet s.index k with
  | none => (s, Except.ok none)
  | some g =>
    match guardFind s.guards g with
    | none => (s, Except.error "Value was dropped, this should NOT still be accessible")
    | some info =>
      (⟨s.index, guardSet s.guards g ⟨info.key, info.value, info.strong + 1⟩, s.next⟩,
       Except.ok (some g))

/-- `Arc::clone` on a handle: increments the strong count; the index is not
touched. -/
def cloneGuard (s : RodState K V) (g : Nat) : RodState K V :=
  match guardFind s.guards g with
  | none => s
  | some info => ⟨s.index, guardSet s.guards g ⟨info.key, info.value, info.strong + 1⟩, s.next⟩

/-- Dropping one `Arc<RodGuard>` handle: the strong count is decremented; if
it reaches zero the teardown hook `RodGuard::drop` runs — acquire the write
lock, remove the entry by the guard's key, release the lock, then destroy the
value (deallocate the guard).  The emitted teardown events are returned. -/
def release (s : RodState K V) (g : Nat) : RodState K V × List (Event K) :=
  match guardFind s.guards g with
  | none => (s, [])
  | some info =>
    if info.strong = 1 then
      (⟨btreeRemove s.index info.key, guardRemove s.guards g, s.next⟩,
       [Event.lockExclusive, Event.removeEntry info.key, Event.unlock, Event.destroyValue g])
    else
      (⟨s.index, guardSet s.guards g ⟨info.key, info.value, info.strong - 1⟩, s.next⟩, [])

end RodBTreeMap

namespace RodHashMap

variable {K V : Type} [DecidableEq K]

/-- `RodHashMap::new`. -/
def new : RodState K V := ⟨[], [], 0⟩

/-- `RodHashMap::len`. -/
def len (s : RodState K V) : Nat := s.index.length

/-- `RodHashMap::is_empty`. -/
def isEmpty (s : RodState K V) : Bool := s.index.isEmpty

/-- `RodHashMap::insert`: same as the ordered variant, over the hashed
index. -/
def insert (s : RodState K V) (k : K) (v : V) : RodState K V × Nat :=
  (⟨hashInsert s.index k s.next, (s.next, ⟨k, v, 1⟩) :: s.guards, s.next + 1⟩, s.next)

/-- `RodHashMap::get`: same as the ordered variant, over the hashed index. -/
def get (s : RodState K V) (k : K) : RodState K V × Except String (Option Nat) :=
  match hashGet s.index k with
  | none => (s, Except.ok none)
  | some g =>
    match guardFind s.guards g with
    | none => (s, Except.error "If value is dropped this should NOT still be accessible")
    | some info =>
      (⟨s.index, guardSet s.guards g ⟨info.key, info.value, info.strong + 1⟩, s.next⟩,
       Except.ok (some g))

/-- `Arc::clone` on a handle of the hashed variant. -/
def cloneGuard (s : RodState K V) (g : Nat) : RodState K V :=
  match guardFind s.guards g with
  | none => s
  | some info => ⟨s.index, guardSet s.guards g ⟨info.key, info.value, info.strong + 1⟩, s.next⟩

/-- Dropping one handle of the hashed variant (teardown as in the ordered
variant, removal going through `HashSet::remove`). -/
def release (s : RodState K V) (g : Nat) : RodState K V × List (Event K) :=
  match guardFind s.guards g with
  | none => (s, [])
  | some info =>
    if info.strong = 1 then
      (⟨hashRemove s.index info.key, guardRemove s.guards g, s.next⟩,
       [Event.lockExclusive, Event.removeEntry info.key, Event.unlock, Event.destroyValue g])
    else
      (⟨s.index, guardSet s.guards g ⟨info.key, info.value, info.strong - 1⟩, s.next⟩, [])

end RodHashMap

/-- A client operation against one rod map.  `clone` and `release` act on a
handle named by its guard allocation id (releasing a handle one does not hold
is a no-op here; Rust's ownership forbids it). -/
inductive Op (K V : Type) where
  | insert (k : K) (v : V)
  | get (k : K)
  | clone (g : Nat)
  | release (g : Nat)
  | len
  | isEmpty
deriving DecidableEq, Repr

/-- The key an operation inserts, if it is an insert. -/
def Op.insertKey {K V : Type} : Op K V → Option K
  | .insert k _ => some k
  | _ => none

/-- Observable result of one operation: the handle returned by `insert`, the
result of `get` (`panicked` models the `.expect` panic on a failed weak
upgrade), the answers of `len` / `is_empty`, or nothing. -/
inductive Obs where
  | handle (g : Nat)
  | got (r : Option Nat)
  | panicked
  | size (n : Nat)
  | empt (b : Bool)
  | unit
deriving DecidableEq, Repr

namespace RodBTreeMap

variable {K V : Type} [LinearOrder K]

/-- One client operation on the ordered map: next state, observation, emitted
teardown events. -/
def step (s : RodState K V) : Op K V → RodState K V × Obs × List (Event K)
  | .insert k v => ((insert s k v).1, Obs.handle (insert s k v).2, [])
  | .get k =>
    match get s k with
    | (s', Except.ok r) => (s', Obs.got r, [])
    | (s', Except.error _) => (s', Obs.panicked, [])
  | .clone g => (cloneGuard s g, Obs.unit, [])
  | .release g => ((release s g).1, Obs.unit, (release s g).2)
  | .len => (s, Obs.size (len s), [])
  | .isEmpty => (s, Obs.empt (isEmpty s), [])

/-- Run a sequence of client operations on the ordered map, collecting the
observations and the concatenated teardown-event trace. -/
def run (s : RodState K V) : List (Op K V) → RodState K V × List Obs × List (Event K)
  | [] => (s, [], [])
  | op :: ops =>
    ((run (step s op).1 ops).1,
     (step s op).2.1 :: (run (step s op).1 ops).2.1,
     (step s op).2.2 ++ (run (step s op).1 ops).2.2)

end RodBTreeMap

namespace RodHashMap

variable {K V : Type} [DecidableEq K]

/-- One client operation on the hashed map. -/
def step (s : RodState K V) : Op K V → RodState K V × Obs × List (Event K)
  | .insert k v => ((insert s k v).1, Obs.handle (insert s k v).2, [])
  | .get k =>
    match get s k with
    | (s', Except.ok r) => (s', Obs.got r, [])
    | (s', Except.error _) => (s', Obs.panicked, [])
  | .clone g => (cloneGuard s g, Obs.unit, [])
  | .release g => ((release s g).1, Obs.unit, (release s g).2)
  | .len => (s, Obs.size (len s), [])
  | .isEmpty => (s, Obs.empt (isEmpty s), [])

/-- Run a sequence of client operations on the hashed map. -/
def run (s : RodState K V) : List (Op K V) → RodState K V × List Obs × List (Event K)
  | [] => (s, [], [])
  | op :: ops =>
    ((run (step s op).1 ops).1,
     (step s op).2.1 :: (run (step s op).1 ops).2.1,
     (step s op).2.2 ++ (run (step s op).1 ops).2.2)

end RodHashMap

/-- Number of `destroyValue g` events in a teardown-event trace: how many
times guard `g`'s value was destroyed. -/
def destroyCount {K : Type} [DecidableEq K] (t : List (Event K)) (g : Nat) : Nat :=
  t.countP (fun e => e = Event.destroyValue g)

/-- Test fixture: a fresh synchronous ordered map after `insert(3, 5)`. -/
def sampleOne : RodState Nat Nat :=
  (RodBTreeMap.insert (RodBTreeMap.new : RodState Nat Nat) 3 5).1

/-- Test fixture: a fresh synchronous ordered map after `insert(0, 10)`. -/
def sampleZero : RodState Nat Nat :=
  (RodBTreeMap.insert (RodBTreeMap.new : RodState Nat Nat) 0 10).1

/-- Thread names for the two-thread race between the final release of a
handle and a concurrent `get` on the same key. -/
inductive Tid where
  | releaser
  | getter
deriving DecidableEq, Repr

/-- What the racing `get` call ends with: a fresh valid handle, the empty
result, or the `.expect` panic on a failed weak upgrade. -/
inductive GetOutcome where
  | validHandle (g : Nat)
  | absent
  | panicked
deriving DecidableEq, Repr

/-- Micro-step state for the race on the synchronous ordered map.  Unlike in
the sequential model, a guard allocation here survives with strong count 0
between `Arc::drop`'s atomic decrement and the destruction of the value, so
a `Weak::upgrade` in that window is observable (it fails). -/
structure RaceState (K V : Type) where
  index : List (K × Nat)
  guards : List (Nat × GuardInfo K V)
  readers : Nat
  writerHeld : Bool
  rpc : Nat
  gpc : Nat
  res : Option GetOutcome
deriving DecidableEq, Repr

/-- One micro-step of the race.  The releaser thread drops one handle of
guard `rg`; the getter thread runs `get(k)`.  `none` means the scheduled
thread is blocked on the lock (or finished), i.e. the schedule is invalid.

Releaser — `drop(Arc<RodGuard>)`:
`rpc 0`: `Arc::drop` decrements the strong count atomically, WITHOUT holding
the index lock; only if the count reaches zero does `RodGuard::drop` follow.
`rpc 1`: acquire the write lock (blocks while a reader or writer holds it).
`rpc 2`: remove the entry by the guard's key.
`rpc 3`: release the write lock (end of the `drop` body).
`rpc 4`: destroy the value — the allocation goes away.

Getter — `get(k)`:
`gpc 0`: acquire the read lock (blocks while a writer holds it).
`gpc 1`: under the read lock, look up the entry and upgrade its weak link:
a live guard (strong ≥ 1) yields a fresh handle (count incremented); a
guard with strong count 0, or a destroyed allocation, makes `upgrade` return
`None` and the `.expect` panic fires.
`gpc 2`: release the read lock. -/
def raceStep {K V : Type} [LinearOrder K] (k : K) (rg : Nat) (s : RaceState K V) :
    Tid → Option (RaceState K V)
  | Tid.releaser =>
    match s.rpc with
    | 0 =>
      match guardFind s.guards rg with
      | none => none
      | some info =>
        if info.strong - 1 = 0 then
          some { s with guards := guardSet s.guards rg ⟨info.key, info.value, 0⟩, rpc := 1 }
        else
          some { s with guards := guardSet s.guards rg ⟨info.key, info.value, info.strong - 1⟩,
                        rpc := 5 }
    | 1 =>
      if s.readers = 0 ∧ s.writerHeld = false then
        some { s with writerHeld := true, rpc := 2 }
      else none
    | 2 =>
      match guardFind s.guards rg with
      | none => none
      | some info => some { s with index := btreeRemove s.index info.key, rpc := 3 }
    | 3 => some { s with writerHeld := false, rpc := 4 }
    | 4 => some { s with guards := guardRemove s.guards rg, rpc := 5 }
    | _ => none
  | Tid.getter =>
    match s.gpc with
    | 0 =>
      if s.writerHeld = false then some { s with readers := s.readers + 1, gpc := 1 } else none
    | 1 =>
      match btreeGet s.index k with
      | none => some { s with res := some GetOutcome.absent, gpc := 2 }
      | some g =>
        match guardFind s.guards g with
        | none => some { s with res := some GetOutcome.panicked, gpc := 2 }
        | some info =>
          if info.strong = 0 then
            some { s with res := some GetOutcome.panicked, gpc := 2 }
          else
            some { s with guards := guardSet s.guards g ⟨info.key, info.value, info.strong + 1⟩,
                          res := some (GetOutcome.validHandle g), gpc := 2 }
    | 2 => some { s with readers := s.readers - 1, gpc := 3 }
    | _ => none

/-- Run a schedule (list of thread names) of race micro-steps; `none` if the
schedule lets a blocked or finished thread step. -/
def raceRun {K V : Type} [LinearOrder K] (k : K) (rg : Nat) (s : RaceState K V) :
    List Tid → Option (RaceState K V)
  | [] => some s
  | t :: ts => (raceStep k rg s t).bind fun s' => raceRun k rg s' ts

/-- The race scenario of the spec: a map holding the single entry
`(k ↦ rg)` whose guard has exactly one outstanding handle (strong count 1);
one thread drops that last handle while another calls `get(k)`. -/
def raceInit {K V : Type} (k : K) (rg : Nat) (v : V) : RaceState K V :=
  ⟨[(k, rg)], [(rg, ⟨k, v, 1⟩)], 0, false, 0, 0, none⟩

/-- Well-formedness of a reachable map state: the index is sorted strictly by
key; guard ids are unique and below the fresh counter; and every indexed
entry's weak link leads to a live guard allocation carrying the entry's own
key (the key allocation shared between `RodEntry` and `RodGuard`). -/
structure WF {K V : Type} [LinearOrder K] (s : RodState K V) : Prop where
  sorted : KeySorted s.index
  gNodup : (s.guards.map Prod.fst).Nodup
  gLt : ∀ p ∈ s.guards, p.1 < s.next
  live : ∀ e ∈ s.index, ∃ info, guardFind s.guards e.2 = some info ∧ info.key = e.1

/-- Coupling between a state of the ordered map and a state of the hashed
map: identical guard allocations and fresh counter, and indexes holding the
same entries — the ordered one well-formed (sorted), the hashed one with
unique keys, agreeing on every key lookup and on size. -/
structure Coupled {K V : Type} [LinearOrder K] [DecidableEq K]
    (sb sh : RodState K V) : Prop where
  wfB : WF sb
  hNodup : (sh.index.map Prod.fst).Nodup
  guardsEq : sh.guards = sb.guards
  nextEq : sh.next = sb.next
  getEq : ∀ k, hashGet sh.index k = btreeGet sb.index k
  lenEq : sh.index.length = sb.index.length

section GuardLemmas

variable {K V : Type}

theorem guardFind_mem {gs : List (Nat × GuardInfo K V)} {g : Nat} {i : GuardInfo K V}
    (h : guardFind gs g = some i) : (g, i) ∈ gs := by
  induction gs with
  | nil => simp [guardFind] at h
  | cons p rest ih =>
    rw [guardFind] at h
    split at h
    · next heq =>
      cases h
      exact heq ▸ List.mem_cons_self p rest
    · exact List.mem_cons_of_mem p (ih h)

theorem guardFind_eq_none_iff {gs : List (Nat × GuardInfo K V)} {g : Nat} :
    guardFind gs g = none ↔ g ∉ gs.map Prod.fst := by
  induction gs with
  | nil => simp [guardFind]
  | cons p rest ih =>
    rw [guardFind]
    split
    · next heq => simp [heq]
    · next hne => simpa [Ne.symm hne] using ih

theorem guardFind_guardSet_self {gs : List (Nat × GuardInfo K V)} {g : Nat}
    {i i' : GuardInfo K V} (h : guardFind gs g = some i) :
    guardFind (guardSet gs g i') g = some i' := by
  induction gs with
  | nil => simp [guardFind] at h
  | cons p rest ih =>
    rw [guardFind] at h
    rw [guardSet]
    split
    · simp [guardFind]
    · next hne =>
      rw [if_neg hne] at h
      rw [guardFind, if_neg hne]
      exact ih h

theorem guardFind_guardSet_ne {gs : List (Nat × GuardInfo K V)} {g g' : Nat}
    {i : GuardInfo K V} (hne : g' ≠ g) :
    guardFind (guardSet gs g i) g' = guardFind gs g' := by
  induction gs with
  | nil => simp [guardSet]
  | cons p rest ih =>
    rw [guardSet]
    split
    · next heq => simp [guardFind, heq, Ne.symm hne]
    · next hpg =>
      rw [guardFind, guardFind]
      by_cases hpg' : p.1 = g' <;> simp [hpg', ih]

theorem mem_guardSet {gs : List (Nat × GuardInfo K V)} {g : Nat} {i : GuardInfo K V}
    {p : Nat × GuardInfo K V} (h : p ∈ guardSet gs g i) : p = (g, i) ∨ p ∈ gs := by
  induction gs with
  | nil => simp [guardSet] at h
  | cons q rest ih =>
    rw [guardSet] at h
    split at h
    · rcases List.mem_cons.1 h with h1 | h1
      · exact Or.inl h1
      · exact Or.inr (List.mem_cons_of_mem q h1)
    · rcases List.mem_cons.1 h with h1 | h1
      · exact Or.inr (h1 ▸ List.mem_cons_self q rest)
      · rcases ih h1 with h2 | h2
        · exact Or.inl h2
        · exact Or.inr (List.mem_cons_of_mem q h2)

theorem map_fst_guardSet (gs : List (Nat × GuardInfo K V)) (g : Nat) (i : GuardInfo K V) :
    (guardSet gs g i).map Prod.fst = gs.map Prod.fst := by
  induction gs with
  | nil => simp [guardSet]
  | cons p rest ih =>
    rw [guardSet]
    split
    · next heq => simp [heq]
    · simp [ih]

theorem guardRemove_sublist (gs : List (Nat × GuardInfo K V)) (g : Nat) :
    List.Sublist (guardRemove gs g) gs := by
  induction gs with
  | nil => simp [guardRemove]
  | cons p rest ih =>
    rw [guardRemove]
    split
    · exact List.sublist_cons_self p rest
    · exact ih.cons₂ p

theorem guardFind_guardRemove_self {gs : List (Nat × GuardInfo K V)} {g : Nat}
    (hnd : (gs.map Prod.fst).Nodup) : guardFind (guardRemove gs g) g = none := by
  induction gs with
  | nil => simp [guardRemove, guardFind]
  | cons p rest ih =>
    rw [guardRemove]
    rw [List.map_cons, List.nodup_cons] at hnd
    split
    · next heq =>
      exact guardFind_eq_none_iff.2 (heq ▸ hnd.1)
    · next hne =>
      rw [guardFind, if_neg hne]
      exact ih hnd.2

theorem guardFind_guardRemove_ne {gs : List (Nat × GuardInfo K V)} {g g' : Nat}
    (hne : g' ≠ g) : guardFind (guardRemove gs g) g' = guardFind gs g' := by
  induction gs with
  | nil => simp [guardRemove]
  | cons p rest ih =>
    rw [guardRemove]
    split
    · next heq => rw [guardFind, if_neg (heq ▸ Ne.symm hne)]
    · rw [guardFind, guardFind]
      by_cases hpg' : p.1 = g' <;> simp [hpg', ih]

end GuardLemmas

section BTreeLemmas

variable {K : Type} [LinearOrder K]

theorem btreeGet_mem {l : List (K × Nat)} {k : K} {g : Nat}
    (h : btreeGet l k = some g) : (k, g) ∈ l := by
  induction l with
  | nil => simp [btreeGet] at h
  | cons e rest ih =>
    rw [btreeGet] at h
    split_ifs at h with h1 h2
    · have hg : e.2 = g := Option.some.inj h
      have he : (k, g) = e := by rw [h2, ← hg]
      exact he ▸ List.mem_cons_self e rest
    · exact List.mem_cons_of_mem e (ih h)

theorem btreeGet_eq_some_of_mem {l : List (K × Nat)} {k : K} {g : Nat}
    (hs : KeySorted l) (hm : (k, g) ∈ l) : btreeGet l k = some g := by
  induction l with
  | nil => simp at hm
  | cons e rest ih =>
    have hs1 := (List.pairwise_cons.1 hs).1
    have hs2 := (List.pairwise_cons.1 hs).2
    rcases List.mem_cons.1 hm with h1 | h1
    · rw [btreeGet, ← h1]
      simp
    · have hlt : e.1 < k := hs1 (k, g) h1
      rw [btreeGet, if_neg (asymm hlt), if_neg (ne_of_gt hlt)]
      exact ih hs2 h1

theorem btreeGet_eq_none_iff {l : List (K × Nat)} {k : K} (hs : KeySorted l) :
    btreeGet l k = none ↔ k ∉ l.map Prod.fst := by
  constructor
  · intro h hk
    rcases List.mem_map.1 hk with ⟨e, he, hfst⟩
    have hsome : btreeGet l k = some e.2 := btreeGet_eq_some_of_mem hs (hfst ▸ he)
    rw [h] at hsome
    cases hsome
  · intro hk
    cases h : btreeGet l k with
    | none => rfl
    | some g =>
      exact absurd (List.mem_map.2 ⟨(k, g), btreeGet_mem h, rfl⟩) hk

theorem mem_btreeInsert {l : List (K × Nat)} {k : K} {g : Nat} {e : K × Nat}
    (h : e ∈ btreeInsert l k g) : e = (k, g) ∨ e ∈ l := by
  induction l with
  | nil => simpa [btreeInsert] using h
  | cons q rest ih =>
    rw [btreeInsert] at h
    split_ifs at h with h1 h2
    · rcases List.mem_cons.1 h with h3 | h3
      · exact Or.inl h3
      · exact Or.inr h3
    · exact Or.inr h
    · rcases List.mem_cons.1 h with h3 | h3
      · exact Or.inr (h3 ▸ List.mem_cons_self q rest)
      · rcases ih h3 with h4 | h4
        · exact Or.inl h4
        · exact Or.inr (List.mem_cons_of_mem q h4)

theorem keySorted_btreeInsert {l : List (K × Nat)} {k : K} {g : Nat}
    (hs : KeySorted l) : KeySorted (btreeInsert l k g) := by
  induction l with
  | nil => simp [btreeInsert]
  | cons e rest ih =>
    have hs1 := (List.pairwise_cons.1 hs).1
    have hs2 := (List.pairwise_cons.1 hs).2
    rw [btreeInsert]
    split_ifs with h1 h2
    · refine List.pairwise_cons.2 ⟨?_, hs⟩
      intro e' he'
      rcases List.mem_cons.1 he' with h3 | h3
      · exact h3 ▸ h1
      · exact lt_trans h1 (hs1 e' h3)
    · exact hs
    · refine List.pairwise_cons.2 ⟨?_, ih hs2⟩
      intro e' he'
      have hgt : e.1 < k := lt_of_le_of_ne (not_lt.1 h1) (fun hh => h2 hh.symm)
      rcases mem_btreeInsert he' with h3 | h3
      · exact h3 ▸ hgt
      · exact hs1 e' h3

theorem btreeInsert_of_get_some {l : List (K × Nat)} {k : K} {g g' : Nat}
    (h : btreeGet l k = some g') : btreeInsert l k g = l := by
  induction l with
  | nil => simp [btreeGet] at h
  | cons e rest ih =>
    rw [btreeGet] at h
    rw [btreeInsert]
    split_ifs at h with h1 h2
    · rw [if_neg h1, if_pos h2]
    · rw [if_neg h1, if_neg h2, ih h]

theorem btreeGet_btreeInsert_self {l : List (K × Nat)} {k : K} {g : Nat}
    (h : btreeGet l k = none) : btreeGet (btreeInsert l k g) k = some g := by
  induction l with
  | nil => simp [btreeInsert, btreeGet]
  | cons e rest ih =>
    rw [btreeGet] at h
    rw [btreeInsert]
    split_ifs at h with h1 h2
    · rw [if_pos h1, btreeGet, if_neg (lt_irrefl k), if_pos rfl]
    · rw [if_neg h1, if_neg h2, btreeGet, if_neg h1, if_neg h2]
      exact ih h

theorem length_btreeInsert_of_get_none {l : List (K × Nat)} {k : K} {g : Nat}
    (h : btreeGet l k = none) : (btreeInsert l k g).length = l.length + 1 := by
  induction l with
  | nil => simp [btreeInsert]
  | cons e rest ih =>
    rw [btreeGet] at h
    rw [btreeInsert]
    split_ifs at h with h1 h2
    · rw [if_pos h1, List.length_cons]
    · rw [if_neg h1, if_neg h2, List.length_cons, List.length_cons, ih h]

theorem subset_btreeInsert {l : List (K × Nat)} (k : K) (g : Nat) {e : K × Nat}
    (h : e ∈ l) : e ∈ btreeInsert l k g := by
  induction l with
  | nil => simp at h
  | cons q rest ih =>
    rw [btreeInsert]
    split_ifs with h1 h2
    · exact List.mem_cons_of_mem _ h
    · exact h
    · rcases List.mem_cons.1 h with h3 | h3
      · exact h3 ▸ List.mem_cons_self q _
      · exact List.mem_cons_of_mem q (ih h3)

theorem btreeGet_btreeInsert_ne {l : List (K × Nat)} {k k' : K} {g : Nat}
    (hs : KeySorted l) (hne : k' ≠ k) :
    btreeGet (btreeInsert l k g) k' = btreeGet l k' := by
  have hs' := keySorted_btreeInsert (k := k) (g := g) hs
  cases h : btreeGet l k' with
  | some g' => exact btreeGet_eq_some_of_mem hs' (subset_btreeInsert k g (btreeGet_mem h))
  | none =>
    refine (btreeGet_eq_none_iff hs').2 ?_
    intro hk
    rcases List.mem_map.1 hk with ⟨e, he, hfst⟩
    rcases mem_btreeInsert he with h1 | h1
    · subst h1
      simp only at hfst
      exact hne hfst.symm
    · exact ((btreeGet_eq_none_iff hs).1 h) (List.mem_map.2 ⟨e, h1, hfst⟩)

theorem mem_btreeRemove {l : List (K × Nat)} {k : K} {e : K × Nat}
    (h : e ∈ btreeRemove l k) : e ∈ l := by
  induction l with
  | nil => simp [btreeRemove] at h
  | cons q rest ih =>
    rw [btreeRemove] at h
    split_ifs at h with h1 h2
    · exact h
    · exact List.mem_cons_of_mem q h
    · rcases List.mem_cons.1 h with h3 | h3
      · exact h3 ▸ List.mem_cons_self q rest
      · exact List.mem_cons_of_mem q (ih h3)

theorem keySorted_btreeRemove {l : List (K × Nat)} {k : K}
    (hs : KeySorted l) : KeySorted (btreeRemove l k) := by
  induction l with
  | nil => simp [btreeRemove]
  | cons e rest ih =>
    have hs1 := (List.pairwise_cons.1 hs).1
    have hs2 := (List.pairwise_cons.1 hs).2
    rw [btreeRemove]
    split_ifs with h1 h2
    · exact hs
    · exact hs2
    · refine List.pairwise_cons.2 ⟨?_, ih hs2⟩
      intro e' he'
      exact hs1 e' (mem_btreeRemove he')

theorem btreeRemove_of_get_none {l : List (K × Nat)} {k : K}
    (h : btreeGet l k = none) : btreeRemove l k = l := by
  induction l with
  | nil => simp [btreeRemove]
  | cons e rest ih =>
    rw [btreeGet] at h
    rw [btreeRemove]
    split_ifs at h with h1 h2
    · rw [if_pos h1]
    · rw [if_neg h1, if_neg h2, ih h]

theorem length_btreeRemove_of_get_some {l : List (K × Nat)} {k : K} {g : Nat}
    (h : btreeGet l k = some g) : (btreeRemove l k).length + 1 = l.length := by
  induction l with
  | nil => simp [btreeGet] at h
  | cons e rest ih =>
    rw [btreeGet] at h
    rw [btreeRemove]
    split_ifs at h with h1 h2
    · rw [if_neg h1, if_pos h2, List.length_cons]
    · rw [if_neg h1, if_neg h2, List.length_cons, List.length_cons, ih h]

theorem btreeGet_of_forall_lt {l : List (K × Nat)} {k : K}
    (h : ∀ e ∈ l, k < e.1) : btreeGet l k = none := by
  cases l with
  | nil => rfl
  | cons e rest => rw [btreeGet, if_pos (h e (List.mem_cons_self e rest))]

theorem btreeGet_btreeRemove_self {l : List (K × Nat)} {k : K}
    (hs : KeySorted l) : btreeGet (btreeRemove l k) k = none := by
  induction l with
  | nil => simp [btreeRemove, btreeGet]
  | cons e rest ih =>
    have hs1 := (List.pairwise_cons.1 hs).1
    have hs2 := (List.pairwise_cons.1 hs).2
    rw [btreeRemove]
    split_ifs with h1 h2
    · rw [btreeGet, if_pos h1]
    · exact btreeGet_of_forall_lt (fun e' he' => h2 ▸ hs1 e' he')
    · rw [btreeGet, if_neg h1, if_neg h2]
      exact ih hs2

theorem mem_btreeRemove_of_ne {l : List (K × Nat)} {k : K} {e : K × Nat}
    (h : e ∈ l) (hne : e.1 ≠ k) : e ∈ btreeRemove l k := by
  induction l with
  | nil => simp at h
  | cons q rest ih =>
    rw [btreeRemove]
    split_ifs with h1 h2
    · exact h
    · rcases List.mem_cons.1 h with h3 | h3
      · exact absurd (by rw [h3, ← h2]) hne
      · exact h3
    · rcases List.mem_cons.1 h with h3 | h3
      · exact h3 ▸ List.mem_cons_self q _
      · exact List.mem_cons_of_mem q (ih h3)

theorem fst_ne_of_mem_btreeRemove {l : List (K × Nat)} {k : K} {e : K × Nat}
    (hs : KeySorted l) (h : e ∈ btreeRemove l k) : e.1 ≠ k := by
  induction l with
  | nil => simp [btreeRemove] at h
  | cons q rest ih =>
    have hs1 := (List.pairwise_cons.1 hs).1
    have hs2 := (List.pairwise_cons.1 hs).2
    rw [btreeRemove] at h
    split_ifs at h with h1 h2
    · rcases List.mem_cons.1 h with h3 | h3
      · exact ne_of_gt (by rw [h3]; exact h1)
      · exact ne_of_gt (lt_trans h1 (hs1 e h3))
    · exact ne_of_gt (by rw [h2]; exact hs1 e h)
    · rcases List.mem_cons.1 h with h3 | h3
      · have hqk : q.1 < k := lt_of_le_of_ne (not_lt.1 h1) (fun hh => h2 hh.symm)
        exact ne_of_lt (by rw [h3]; exact hqk)
      · exact ih hs2 h3

theorem btreeGet_btreeRemove_ne {l : List (K × Nat)} {k k' : K}
    (hs : KeySorted l) (hne : k' ≠ k) :
    btreeGet (btreeRemove l k) k' = btreeGet l k' := by
  have hs' := keySorted_btreeRemove (k := k) hs
  cases h : btreeGet l k' with
  | some g' =>
    exact btreeGet_eq_some_of_mem hs' (mem_btreeRemove_of_ne (btreeGet_mem h) hne)
  | none =>
    refine (btreeGet_eq_none_iff hs').2 ?_
    intro hk
    rcases List.mem_map.1 hk with ⟨e, he, hfst⟩
    exact ((btreeGet_eq_none_iff hs).1 h) (List.mem_map.2 ⟨e, mem_btreeRemove he, hfst⟩)

end BTreeLemmas

section Invariant

variable {K V : Type} [LinearOrder K]

theorem wf_new : WF (RodBTreeMap.new : RodState K V) := by
  refine ⟨?_, ?_, ?_, ?_⟩ <;> simp [RodBTreeMap.new]

theorem wf_insert {s : RodState K V} {k : K} {v : V} (h : WF s) :
    WF (RodBTreeMap.insert s k v).1 := by
  obtain ⟨hs, hnd, hlt, hlive⟩ := h
  simp only [RodBTreeMap.insert]
  refine ⟨keySorted_btreeInsert hs, ?_, ?_, ?_⟩
  · rw [List.map_cons, List.nodup_cons]
    refine ⟨fun hmem => ?_, hnd⟩
    rcases List.mem_map.1 hmem with ⟨p, hp, hfst⟩
    have hplt := hlt p hp
    rw [hfst] at hplt
    exact absurd hplt (lt_irrefl s.next)
  · intro p hp
    rcases List.mem_cons.1 hp with h1 | h1
    · rw [h1]
      exact Nat.lt_succ_self s.next
    · exact Nat.lt_succ_of_lt (hlt p h1)
  · intro e he
    rcases mem_btreeInsert he with h1 | h1
    · refine ⟨⟨k, v, 1⟩, ?_, by rw [h1]⟩
      rw [h1, guardFind, if_pos rfl]
    · rcases hlive e h1 with ⟨info, hfind, hkey⟩
      refine ⟨info, ?_, hkey⟩
      have hne : s.next ≠ e.2 := by
        rcases guardFind_mem hfind with hmem
        exact Nat.ne_of_gt (hlt _ hmem)
      rw [guardFind, if_neg hne]
      exact hfind

/-- Adjusting the strong count of a live guard (clone, upgrade in `get`, or
a non-final drop) preserves well-formedness. -/
theorem wf_bump {s : RodState K V} {g : Nat} {info : GuardInfo K V} {n : Nat}
    (h : WF s) (hf : guardFind s.guards g = some info) :
    WF ⟨s.index, guardSet s.guards g ⟨info.key, info.value, n⟩, s.next⟩ := by
  obtain ⟨hs, hnd, hlt, hlive⟩ := h
  refine ⟨hs, ?_, ?_, ?_⟩
  · rw [map_fst_guardSet]
    exact hnd
  · intro p hp
    rcases mem_guardSet hp with h1 | h1
    · rw [h1]
      exact hlt (g, info) (guardFind_mem hf)
    · exact hlt p h1
  · intro e he
    rcases hlive e he with ⟨info', hfind, hkey⟩
    by_cases heq : e.2 = g
    · have hii : info' = info := by
        rw [heq] at hfind
        rw [hfind] at hf
        exact Option.some.inj hf
      refine ⟨⟨info.key, info.value, n⟩, ?_, ?_⟩
      · rw [heq]
        exact guardFind_guardSet_self hf
      · rw [← hkey, hii]
    · refine ⟨info', ?_, hkey⟩
      rw [guardFind_guardSet_ne heq]
      exact hfind

theorem wf_get {s : RodState K V} {k : K} (h : WF s) :
    WF (RodBTreeMap.get s k).1 := by
  rw [RodBTreeMap.get]
  split
  · exact h
  · split
    · exact h
    · next info heq => exact wf_bump h heq

theorem wf_cloneGuard {s : RodState K V} {g : Nat} (h : WF s) :
    WF (RodBTreeMap.cloneGuard s g) := by
  rw [RodBTreeMap.cloneGuard]
  split
  · exact h
  · next info heq => exact wf_bump h heq

theorem wf_release {s : RodState K V} {g : Nat} (h : WF s) :
    WF (RodBTreeMap.release s g).1 := by
  rw [RodBTreeMap.release]
  split
  · exact h
  · next info h2 =>
    split_ifs with h3
    · obtain ⟨hs, hnd, hlt, hlive⟩ := h
      refine ⟨keySorted_btreeRemove hs, ?_, ?_, ?_⟩
      · exact List.Nodup.sublist ((guardRemove_sublist s.guards g).map Prod.fst) hnd
      · intro p hp
        exact hlt p ((guardRemove_sublist s.guards g).mem hp)
      · intro e he
        rcases hlive e (mem_btreeRemove he) with ⟨info', hfind, hkey⟩
        refine ⟨info', ?_, hkey⟩
        have hne : e.2 ≠ g := by
          intro heq
          rw [heq, h2] at hfind
          have hii : info' = info := (Option.some.inj hfind).symm
          exact (fst_ne_of_mem_btreeRemove hs he) (by rw [← hkey, hii])
        rw [guardFind_guardRemove_ne hne]
        exact hfind
    · exact wf_bump h h2

end Invariant

section Claims

variable {K V : Type} [LinearOrder K]

/-- **C3.** For every (well-formed) map state in which key `k` is absent,
after `insert(k, v)`: `get(k)` returns precisely the freshly inserted
handle, that handle dereferences to `v` (its guard allocation stores `v`),
and `len()` is exactly one greater than before the insert. -/
theorem C3_insert_absent_get_and_len (s : RodState K V) (k : K) (v : V)
    (habs : btreeGet s.index k = none) :
    (RodBTreeMap.get (RodBTreeMap.insert s k v).1 k).2
      = Except.ok (some (RodBTreeMap.insert s k v).2) ∧
    guardFind (RodBTreeMap.insert s k v).1.guards (RodBTreeMap.insert s k v).2
      = some ⟨k, v, 1⟩ ∧
    RodBTreeMap.len (RodBTreeMap.insert s k v).1 = RodBTreeMap.len s + 1 := by
  have hget : btreeGet (btreeInsert s.index k s.next) k = some s.next :=
    btreeGet_btreeInsert_self habs
  have hgf : guardFind ((s.next, (⟨k, v, 1⟩ : GuardInfo K V)) :: s.guards) s.next
      = some ⟨k, v, 1⟩ := by
    rw [guardFind, if_pos rfl]
  refine ⟨?_, ?_, ?_⟩
  · simp only [RodBTreeMap.insert, RodBTreeMap.get, hget, hgf]
  · simp only [RodBTreeMap.insert]
    exact hgf
  · simp only [RodBTreeMap.insert, RodBTreeMap.len]
    exact length_btreeInsert_of_get_none habs

/-- Witness for C3 at the concrete input: a fresh map, `insert(0, 5)`. -/
theorem C3_witness :
    (RodBTreeMap.get (RodBTreeMap.insert (RodBTreeMap.new : RodState Nat Nat) 0 5).1 0).2
      = Except.ok (some (RodBTreeMap.insert (RodBTreeMap.new : RodState Nat Nat) 0 5).2) ∧
    guardFind (RodBTreeMap.insert (RodBTreeMap.new : RodState Nat Nat) 0 5).1.guards
      (RodBTreeMap.insert (RodBTreeMap.new : RodState Nat Nat) 0 5).2 = some ⟨0, 5, 1⟩ ∧
    RodBTreeMap.len (RodBTreeMap.insert (RodBTreeMap.new : RodState Nat Nat) 0 5).1
      = RodBTreeMap.len (RodBTreeMap.new : RodState Nat Nat) + 1 :=
  C3_insert_absent_get_and_len RodBTreeMap.new 0 5 rfl

/-- **C1.** Releasing the sole outstanding handle for `k` (its guard's
strong count is 1) removes `k`'s entry: `len()` decreases by exactly 1,
`get(k)` now returns the empty result, and if `k` was the only key the map
becomes empty. -/
theorem C1_release_sole_handle (s : RodState K V) (k : K) (g : Nat) (v : V)
    (hwf : WF s) (hidx : btreeGet s.index k = some g)
    (hg : guardFind s.guards g = some ⟨k, v, 1⟩) :
    RodBTreeMap.len (RodBTreeMap.release s g).1 + 1 = RodBTreeMap.len s ∧
    (RodBTreeMap.get (RodBTreeMap.release s g).1 k).2 = Except.ok none ∧
    (RodBTreeMap.len s = 1 → RodBTreeMap.isEmpty (RodBTreeMap.release s g).1 = true) := by
  have hrel : (RodBTreeMap.release s g).1
      = ⟨btreeRemove s.index k, guardRemove s.guards g, s.next⟩ := by
    rw [RodBTreeMap.release, hg]
    rfl
  have hlen : (btreeRemove s.index k).length + 1 = s.index.length :=
    length_btreeRemove_of_get_some hidx
  refine ⟨?_, ?_, ?_⟩
  · rw [hrel]
    exact hlen
  · rw [hrel, RodBTreeMap.get]
    simp only [btreeGet_btreeRemove_self hwf.sorted]
  · intro h1
    have h0 : (btreeRemove s.index k).length = 0 := by
      rw [RodBTreeMap.len] at h1
      omega
    have hnil : btreeRemove s.index k = [] := List.length_eq_zero.1 h0
    rw [hrel, RodBTreeMap.isEmpty, hnil]
    rfl

/-- Witness for C1 at the concrete input: map `{3 ↦ 5}`, the sole handle
(guard 0, strong count 1) released. -/
theorem C1_witness :
    RodBTreeMap.len (RodBTreeMap.release sampleOne 0).1 + 1 = RodBTreeMap.len sampleOne ∧
    (RodBTreeMap.get (RodBTreeMap.release sampleOne 0).1 3).2 = Except.ok none ∧
    (RodBTreeMap.len sampleOne = 1 →
      RodBTreeMap.isEmpty (RodBTreeMap.release sampleOne 0).1 = true) :=
  C1_release_sole_handle sampleOne 3 0 5 (wf_insert wf_new) rfl rfl

/-- **C5.** Cloning a handle performs no Index mutation and keeps the entry
alive: starting from the sole handle for `k` (strong count 1), a clone bumps
the count to 2 and leaves the index untouched; releasing one of the two
handles leaves the index untouched (so `k` is still present and `len()` is
unchanged); releasing the remaining handle removes `k`'s entry. -/
theorem C5_clone_keeps_entry_alive (s : RodState K V) (k : K) (g : Nat) (v : V)
    (hwf : WF s) (hidx : btreeGet s.index k = some g)
    (hg : guardFind s.guards g = some ⟨k, v, 1⟩) :
    (RodBTreeMap.cloneGuard s g).index = s.index ∧
    guardFind (RodBTreeMap.cloneGuard s g).guards g = some ⟨k, v, 2⟩ ∧
    (RodBTreeMap.release (RodBTreeMap.cloneGuard s g) g).1.index = s.index ∧
    btreeGet (RodBTreeMap.release (RodBTreeMap.cloneGuard s g) g).1.index k = some g ∧
    RodBTreeMap.len (RodBTreeMap.release (RodBTreeMap.cloneGuard s g) g).1
      = RodBTreeMap.len s ∧
    (RodBTreeMap.get
      (RodBTreeMap.release
        (RodBTreeMap.release (RodBTreeMap.cloneGuard s g) g).1 g).1 k).2
      = Except.ok none ∧
    RodBTreeMap.len
      (RodBTreeMap.release
        (RodBTreeMap.release (RodBTreeMap.cloneGuard s g) g).1 g).1 + 1
      = RodBTreeMap.len s := by
  have h1 : RodBTreeMap.cloneGuard s g
      = ⟨s.index, guardSet s.guards g ⟨k, v, 2⟩, s.next⟩ := by
    rw [RodBTreeMap.cloneGuard, hg]
  have hf1 : guardFind (guardSet s.guards g (⟨k, v, 2⟩ : GuardInfo K V)) g
      = some ⟨k, v, 2⟩ := guardFind_guardSet_self hg
  have h2 : RodBTreeMap.release (⟨s.index, guardSet s.guards g ⟨k, v, 2⟩,
        s.next⟩ : RodState K V) g
      = (⟨s.index, guardSet (guardSet s.guards g ⟨k, v, 2⟩) g ⟨k, v, 1⟩, s.next⟩, []) := by
    rw [RodBTreeMap.release, hf1]
    rfl
  have hf2 : guardFind (guardSet (guardSet s.guards g (⟨k, v, 2⟩ : GuardInfo K V)) g
        (⟨k, v, 1⟩ : GuardInfo K V)) g = some ⟨k, v, 1⟩ :=
    guardFind_guardSet_self hf1
  have h3 : RodBTreeMap.release (⟨s.index, guardSet (guardSet s.guards g ⟨k, v, 2⟩) g
        ⟨k, v, 1⟩, s.next⟩ : RodState K V) g
      = (⟨btreeRemove s.index k,
          guardRemove (guardSet (guardSet s.guards g ⟨k, v, 2⟩) g ⟨k, v, 1⟩) g, s.next⟩,
         [Event.lockExclusive, Event.removeEntry k, Event.unlock, Event.destroyValue g]) := by
    rw [RodBTreeMap.release, hf2]
    rfl
  rw [h1, h2, h3]
  refine ⟨rfl, hf1, rfl, hidx, rfl, ?_, ?_⟩
  · rw [RodBTreeMap.get]
    simp only [btreeGet_btreeRemove_self hwf.sorted]
  · rw [RodBTreeMap.len, RodBTreeMap.len]
    exact length_btreeRemove_of_get_some hidx

/-- Witness for C5 at the concrete input: map `{3 ↦ 5}`, its sole handle
(guard 0) cloned, then the two handles released one after the other. -/
theorem C5_witness :
    (RodBTreeMap.cloneGuard sampleOne 0).index = sampleOne.index ∧
    guardFind (RodBTreeMap.cloneGuard sampleOne 0).guards 0 = some ⟨3, 5, 2⟩ ∧
    (RodBTreeMap.release (RodBTreeMap.cloneGuard sampleOne 0) 0).1.index
      = sampleOne.index ∧
    btreeGet (RodBTreeMap.release (RodBTreeMap.cloneGuard sampleOne 0) 0).1.index 3
      = some 0 ∧
    RodBTreeMap.len (RodBTreeMap.release (RodBTreeMap.cloneGuard sampleOne 0) 0).1
      = RodBTreeMap.len sampleOne ∧
    (RodBTreeMap.get
      (RodBTreeMap.release
        (RodBTreeMap.release (RodBTreeMap.cloneGuard sampleOne 0) 0).1 0).1 3).2
      = Except.ok none ∧
    RodBTreeMap.len
      (RodBTreeMap.release
        (RodBTreeMap.release (RodBTreeMap.cloneGuard sampleOne 0) 0).1 0).1 + 1
      = RodBTreeMap.len sampleOne :=
  C5_clone_keeps_entry_alive sampleOne 3 0 5 (wf_insert wf_new) rfl rfl

/-- **C2** — counterexample to the claim as stated.  After `insert(0, 10)`
followed by the duplicate `insert(0, 20)` on the synchronous ordered map,
the Index entry for key 0 still links to guard 0 — the FIRST insert's
allocation, holding value 10 — and not to the duplicate insert's handle
(guard 1, value 20): `BTreeSet::insert` keeps the old element, so the newly
built Entry did not replace the old Entry. -/
theorem C2_counterexample :
    (RodBTreeMap.insert sampleZero 0 20).2 = 1 ∧
    btreeGet (RodBTreeMap.insert sampleZero 0 20).1.index 0 = some 0 ∧
    guardFind (RodBTreeMap.insert sampleZero 0 20).1.guards 0 = some ⟨0, 10, 1⟩ ∧
    (RodBTreeMap.get (RodBTreeMap.insert sampleZero 0 20).1 0).2
      = Except.ok (some 0) ∧
    ¬ btreeGet (RodBTreeMap.insert sampleZero 0 20).1.index 0
      = some (RodBTreeMap.insert sampleZero 0 20).2 := by
  refine ⟨rfl, rfl, rfl, rfl, ?_⟩
  decide

/-- **C2** (amended).  `insert(key, value)` always succeeds and returns a
fresh handle whose allocation carries the new value; when `key` is already
present in the Index, the newly built Entry is silently DISCARDED — the old
Entry is retained unchanged in the Index — while the prior Handle(s) for
that key are left intact (not torn down). -/
theorem C2_insert_present_keeps_old_entry (s : RodState K V) (k : K) (v2 : V)
    (g1 : Nat) (hidx : btreeGet s.index k = some g1) :
    (RodBTreeMap.insert s k v2).1.index = s.index ∧
    guardFind (RodBTreeMap.insert s k v2).1.guards (RodBTreeMap.insert s k v2).2
      = some ⟨k, v2, 1⟩ ∧
    (∀ g', g' ≠ (RodBTreeMap.insert s k v2).2 →
      guardFind (RodBTreeMap.insert s k v2).1.guards g' = guardFind s.guards g') := by
  refine ⟨?_, ?_, ?_⟩
  · simp only [RodBTreeMap.insert]
    exact btreeInsert_of_get_some hidx
  · simp only [RodBTreeMap.insert]
    rw [guardFind, if_pos rfl]
  · intro g' hne
    simp only [RodBTreeMap.insert] at hne ⊢
    rw [guardFind, if_neg (Ne.symm hne)]

/-- Witness for C2's amended claim at the concrete input: map `{0 ↦ 10}`,
duplicate `insert(0, 20)`. -/
theorem C2_witness :
    (RodBTreeMap.insert sampleZero 0 20).1.index = sampleZero.index ∧
    guardFind (RodBTreeMap.insert sampleZero 0 20).1.guards
      (RodBTreeMap.insert sampleZero 0 20).2 = some ⟨0, 20, 1⟩ ∧
    (∀ g', g' ≠ (RodBTreeMap.insert sampleZero 0 20).2 →
      guardFind (RodBTreeMap.insert sampleZero 0 20).1.guards g'
        = guardFind sampleZero.guards g') :=
  C2_insert_present_keeps_old_entry sampleZero 0 20 0 rfl

/-- **C10.** Duplicate insert while a live handle exists: with key `k`
present (entry linking to guard `g1`, value `v1`, strong count `n ≥ 1`),
`insert(k, v2)` returns a fresh handle dereferencing to `v2`; a subsequent
`get(k)` still returns a handle to the ORIGINAL guard `g1` (value `v1`);
and releasing the duplicate insert's handle (its only strong reference)
removes `k`'s entry from the Index, so `get(k)` becomes empty even though
`g1` is still live. -/
theorem C10_duplicate_insert_shadowing (s : RodState K V) (k : K) (g1 : Nat)
    (v1 v2 : V) (n : Nat) (hwf : WF s)
    (hidx : btreeGet s.index k = some g1)
    (hg1 : guardFind s.guards g1 = some ⟨k, v1, n⟩) (hn : 1 ≤ n) :
    guardFind (RodBTreeMap.insert s k v2).1.guards (RodBTreeMap.insert s k v2).2
      = some ⟨k, v2, 1⟩ ∧
    (RodBTreeMap.get (RodBTreeMap.insert s k v2).1 k).2 = Except.ok (some g1) ∧
    guardFind (RodBTreeMap.insert s k v2).1.guards g1 = some ⟨k, v1, n⟩ ∧
    (RodBTreeMap.get
      (RodBTreeMap.release (RodBTreeMap.insert s k v2).1
        (RodBTreeMap.insert s k v2).2).1 k).2 = Except.ok none ∧
    guardFind (RodBTreeMap.release (RodBTreeMap.insert s k v2).1
        (RodBTreeMap.insert s k v2).2).1.guards g1 = some ⟨k, v1, n⟩ := by
  have hlt : g1 < s.next := hwf.gLt (g1, ⟨k, v1, n⟩) (guardFind_mem hg1)
  have hne : s.next ≠ g1 := Nat.ne_of_gt hlt
  have hidx2 : btreeInsert s.index k s.next = s.index := btreeInsert_of_get_some hidx
  have hgf1 : guardFind ((s.next, (⟨k, v2, 1⟩ : GuardInfo K V)) :: s.guards) g1
      = some ⟨k, v1, n⟩ := by
    rw [guardFind, if_neg hne]
    exact hg1
  have hgfnew : guardFind ((s.next, (⟨k, v2, 1⟩ : GuardInfo K V)) :: s.guards) s.next
      = some ⟨k, v2, 1⟩ := by
    rw [guardFind, if_pos rfl]
  have hrel : (RodBTreeMap.release (RodBTreeMap.insert s k v2).1
        (RodBTreeMap.insert s k v2).2).1
      = ⟨btreeRemove s.index k, s.guards, s.next + 1⟩ := by
    simp [RodBTreeMap.insert, RodBTreeMap.release, hgfnew, hidx2, guardRemove]
  refine ⟨?_, ?_, ?_, ?_, ?_⟩
  · simp only [RodBTreeMap.insert]
    exact hgfnew
  · simp only [RodBTreeMap.insert, RodBTreeMap.get, hidx2, hidx, hgf1]
  · simp only [RodBTreeMap.insert]
    exact hgf1
  · rw [hrel, RodBTreeMap.get]
    simp only [btreeGet_btreeRemove_self hwf.sorted]
  · rw [hrel]
    exact hg1

/-- Witness for C10 at the concrete input: map `{0 ↦ 10}` (guard 0 live,
strong count 1), duplicate `insert(0, 20)`, then release of the duplicate
handle (guard 1). -/
theorem C10_witness :
    guardFind (RodBTreeMap.insert sampleZero 0 20).1.guards
      (RodBTreeMap.insert sampleZero 0 20).2 = some ⟨0, 20, 1⟩ ∧
    (RodBTreeMap.get (RodBTreeMap.insert sampleZero 0 20).1 0).2
      = Except.ok (some 0) ∧
    guardFind (RodBTreeMap.insert sampleZero 0 20).1.guards 0 = some ⟨0, 10, 1⟩ ∧
    (RodBTreeMap.get
      (RodBTreeMap.release (RodBTreeMap.insert sampleZero 0 20).1
        (RodBTreeMap.insert sampleZero 0 20).2).1 0).2 = Except.ok none ∧
    guardFind (RodBTreeMap.release (RodBTreeMap.insert sampleZero 0 20).1
        (RodBTreeMap.insert sampleZero 0 20).2).1.guards 0 = some ⟨0, 10, 1⟩ :=
  C10_duplicate_insert_shadowing sampleZero 0 0 10 20 1 (wf_insert wf_new)
    rfl rfl (le_refl 1)

/-- **C7.** No operation of the public API returns an error value: `insert`
always succeeds (it returns a handle whose fresh allocation carries the new
value, whatever the state); `get` signals an absent key with the empty
result `Ok(none)`, not an error; and the only faulting outcome of `get` —
modelling the `.expect` panic — occurs exactly when the key is still
indexed but its weak link fails to upgrade (the guard allocation is gone).
-/
theorem C7_no_error_surface (s : RodState K V) (k : K) (v : V) :
    guardFind (RodBTreeMap.insert s k v).1.guards (RodBTreeMap.insert s k v).2
      = some ⟨k, v, 1⟩ ∧
    (btreeGet s.index k = none → (RodBTreeMap.get s k).2 = Except.ok none) ∧
    (∀ e, (RodBTreeMap.get s k).2 = Except.error e ↔
      (∃ g, btreeGet s.index k = some g ∧ guardFind s.guards g = none) ∧
      e = "Value was dropped, this should NOT still be accessible") := by
  refine ⟨?_, ?_, ?_⟩
  · simp only [RodBTreeMap.insert]
    rw [guardFind, if_pos rfl]
  · intro h
    rw [RodBTreeMap.get, h]
  · intro e
    rw [RodBTreeMap.get]
    split
    · next heq =>
      constructor
      · intro hh
        exact Except.noConfusion hh
      · rintro ⟨⟨g, hg, _⟩, _⟩
        rw [heq] at hg
        cases hg
    · next g heq =>
      split
      · next hfind =>
        constructor
        · intro hh
          exact ⟨⟨g, heq, hfind⟩, (Except.error.inj hh).symm⟩
        · rintro ⟨_, he⟩
          rw [he]
      · next info hfind =>
        constructor
        · intro hh
          exact Except.noConfusion hh
        · rintro ⟨⟨g', hg', hfind'⟩, _⟩
          rw [heq] at hg'
          rw [← Option.some.inj hg'] at hfind'
          rw [hfind] at hfind'
          cases hfind'

/-- Witness for C7 at the concrete input: map `{0 ↦ 10}`, key 1 (absent),
value 9. -/
theorem C7_witness :
    guardFind (RodBTreeMap.insert sampleZero 1 9).1.guards
      (RodBTreeMap.insert sampleZero 1 9).2 = some ⟨1, 9, 1⟩ ∧
    (btreeGet sampleZero.index 1 = none →
      (RodBTreeMap.get sampleZero 1).2 = Except.ok none) ∧
    (∀ e, (RodBTreeMap.get sampleZero 1).2 = Except.error e ↔
      (∃ g, btreeGet sampleZero.index 1 = some g ∧
        guardFind sampleZero.guards g = none) ∧
      e = "Value was dropped, this should NOT still be accessible") :=
  C7_no_error_surface sampleZero 1 9

theorem wf_step {s : RodState K V} (op : Op K V) (h : WF s) :
    WF (RodBTreeMap.step s op).1 := by
  cases op with
  | insert k v => exact wf_insert h
  | get k =>
    have hh := wf_get (s := s) (k := k) h
    rw [RodBTreeMap.step]
    rcases hg : RodBTreeMap.get s k with ⟨s1, r⟩
    rw [hg] at hh
    cases r with
    | ok r0 => exact hh
    | error e => exact hh
  | clone g => exact wf_cloneGuard h
  | release g => exact wf_release h
  | len => exact h
  | isEmpty => exact h

theorem wf_run {s : RodState K V} (h : WF s) (ops : List (Op K V)) :
    WF (RodBTreeMap.run s ops).1 := by
  induction ops generalizing s with
  | nil => exact h
  | cons op rest ih =>
    rw [RodBTreeMap.run]
    exact ih (wf_step op h)

/-- A single client operation that is not an insert of key `k` leaves an
absent key `k` absent. -/
theorem step_get_none {s : RodState K V} {k : K} {op : Op K V} (hwf : WF s)
    (hnone : btreeGet s.index k = none) (hop : Op.insertKey op ≠ some k) :
    btreeGet (RodBTreeMap.step s op).1.index k = none := by
  cases op with
  | insert k2 v =>
    have hne : k ≠ k2 := by
      intro he
      exact hop (by rw [Op.insertKey, he])
    rw [RodBTreeMap.step]
    simp only [RodBTreeMap.insert]
    rw [btreeGet_btreeInsert_ne hwf.sorted hne]
    exact hnone
  | get k2 =>
    rw [RodBTreeMap.step]
    rcases hg : RodBTreeMap.get s k2 with ⟨s1, r⟩
    have hidx : s1.index = s.index := by
      rw [RodBTreeMap.get] at hg
      split at hg
      · cases hg
        rfl
      · split at hg
        · cases hg
          rfl
        · cases hg
          rfl
    cases r with
    | ok r0 =>
      show btreeGet s1.index k = none
      rw [hidx]
      exact hnone
    | error e =>
      show btreeGet s1.index k = none
      rw [hidx]
      exact hnone
  | clone g =>
    rw [RodBTreeMap.step, RodBTreeMap.cloneGuard]
    split
    · exact hnone
    · exact hnone
  | release g =>
    rw [RodBTreeMap.step, RodBTreeMap.release]
    split
    · exact hnone
    · next info h2 =>
      split_ifs with h3
      · by_cases hk : k = info.key
        · rw [hk]
          exact btreeGet_btreeRemove_self hwf.sorted
        · rw [btreeGet_btreeRemove_ne hwf.sorted hk]
          exact hnone
      · exact hnone
  | len => exact hnone
  | isEmpty => exact hnone

/-- A whole run of client operations none of which inserts key `k` leaves
an absent key `k` absent. -/
theorem run_get_none {s : RodState K V} {k : K} (hwf : WF s)
    (hnone : btreeGet s.index k = none) (ops : List (Op K V))
    (hops : ∀ op ∈ ops, Op.insertKey op ≠ some k) :
    btreeGet (RodBTreeMap.run s ops).1.index k = none := by
  induction ops generalizing s with
  | nil => exact hnone
  | cons op rest ih =>
    rw [RodBTreeMap.run]
    exact ih (wf_step op hwf)
      (step_get_none hwf hnone (hops op (List.mem_cons_self op rest)))
      (fun op2 h2 => hops op2 (List.mem_cons_of_mem op h2))

/-- **C4.** For every key `k` on which insert was never called — any
sequence of client operations containing no `insert(k, _)` — `get(k)`
returns the empty result `Ok(none)`, not an error. -/
theorem C4_get_never_inserted (ops : List (Op K V)) (k : K)
    (h : ∀ op ∈ ops, Op.insertKey op ≠ some k) :
    (RodBTreeMap.get (RodBTreeMap.run (RodBTreeMap.new : RodState K V) ops).1 k).2
      = Except.ok none := by
  have hnone := run_get_none (s := RodBTreeMap.new) wf_new rfl ops h
  rw [RodBTreeMap.get, hnone]

/-- Witness for C4 at a concrete run: operations
`[insert(1, 7), get(1), len, release(0)]`, key 0 never inserted. -/
theorem C4_witness :
    (∀ op ∈ ([Op.insert 1 7, Op.get 1, Op.len, Op.release 0] : List (Op Nat Nat)),
      Op.insertKey op ≠ some 0) ∧
    (RodBTreeMap.get
      (RodBTreeMap.run (RodBTreeMap.new : RodState Nat Nat)
        [Op.insert 1 7, Op.get 1, Op.len, Op.release 0]).1 0).2 = Except.ok none :=
  ⟨by decide, C4_get_never_inserted [Op.insert 1 7, Op.get 1, Op.len, Op.release 0] 0
    (by decide)⟩

omit [LinearOrder K] in
theorem guardFind_none_guardRemove {gs : List (Nat × GuardInfo K V)} {g g2 : Nat}
    (h : guardFind gs g = none) : guardFind (guardRemove gs g2) g = none := by
  rw [guardFind_eq_none_iff] at h ⊢
  intro hmem
  exact h (((guardRemove_sublist gs g2).map Prod.fst).mem hmem)

/-- `get` can only bump a live guard's count: a dead guard id stays dead,
and the fresh-id counter is unchanged. -/
theorem get_preserves_dead {s : RodState K V} {k : K} {g : Nat}
    (hdead : guardFind s.guards g = none) :
    guardFind (RodBTreeMap.get s k).1.guards g = none ∧
    (RodBTreeMap.get s k).1.next = s.next := by
  rw [RodBTreeMap.get]
  split
  · exact ⟨hdead, rfl⟩
  · next g2 hidx2 =>
    split
    · exact ⟨hdead, rfl⟩
    · next info hfind =>
      have hne : g ≠ g2 := by
        intro he
        rw [he, hfind] at hdead
        cases hdead
      exact ⟨by rw [guardFind_guardSet_ne hne]; exact hdead, rfl⟩

/-- One client operation neither revives a dead guard id nor destroys its
value again, and keeps the id below the fresh counter. -/
theorem step_dead {s : RodState K V} {g : Nat} (op : Op K V) (hwf : WF s)
    (hdead : guardFind s.guards g = none) (hlt : g < s.next) :
    guardFind (RodBTreeMap.step s op).1.guards g = none ∧
    g < (RodBTreeMap.step s op).1.next ∧
    destroyCount (RodBTreeMap.step s op).2.2 g = 0 := by
  cases op with
  | insert k v =>
    refine ⟨?_, Nat.lt_succ_of_lt hlt, rfl⟩
    simp only [RodBTreeMap.step, RodBTreeMap.insert]
    rw [guardFind, if_neg (Nat.ne_of_gt hlt)]
    exact hdead
  | get k =>
    have hh := get_preserves_dead (k := k) hdead
    rw [RodBTreeMap.step]
    rcases hg : RodBTreeMap.get s k with ⟨s1, r⟩
    rw [hg] at hh
    cases r with
    | ok r0 => exact ⟨hh.1, hh.2 ▸ hlt, rfl⟩
    | error e => exact ⟨hh.1, hh.2 ▸ hlt, rfl⟩
  | clone g2 =>
    rw [RodBTreeMap.step, RodBTreeMap.cloneGuard]
    split
    · exact ⟨hdead, hlt, rfl⟩
    · next info hfind =>
      have hne : g ≠ g2 := by
        intro he
        rw [he, hfind] at hdead
        cases hdead
      exact ⟨by rw [guardFind_guardSet_ne hne]; exact hdead, hlt, rfl⟩
  | release g2 =>
    rw [RodBTreeMap.step, RodBTreeMap.release]
    split
    · exact ⟨hdead, hlt, rfl⟩
    · next info hfind =>
      have hne : g ≠ g2 := by
        intro he
        rw [he, hfind] at hdead
        cases hdead
      split_ifs with h3
      · refine ⟨guardFind_none_guardRemove hdead, hlt, ?_⟩
        simp [destroyCount, List.countP_cons, Ne.symm hne]
      · exact ⟨by rw [guardFind_guardSet_ne hne]; exact hdead, hlt, rfl⟩
  | len => exact ⟨hdead, hlt, rfl⟩
  | isEmpty => exact ⟨hdead, hlt, rfl⟩

/-- Once a guard's value has been destroyed (its id is dead), no later
operation ever emits another `destroyValue` event for it. -/
theorem run_no_destroy_of_dead {s : RodState K V} {g : Nat} (hwf : WF s)
    (hdead : guardFind s.guards g = none) (hlt : g < s.next)
    (ops : List (Op K V)) :
    destroyCount (RodBTreeMap.run s ops).2.2 g = 0 := by
  induction ops generalizing s with
  | nil => rfl
  | cons op rest ih =>
    rw [RodBTreeMap.run]
    obtain ⟨hd, hl, hz⟩ := step_dead op hwf hdead hlt
    show destroyCount ((RodBTreeMap.step s op).2.2
      ++ (RodBTreeMap.run (RodBTreeMap.step s op).1 rest).2.2) g = 0
    rw [destroyCount, List.countP_append]
    rw [destroyCount] at hz
    rw [hz]
    have := ih (wf_step op hwf) hd hl
    rw [destroyCount] at this
    rw [this]

/-- If one client operation emits a `destroyValue g` event at all, it is a
final release of guard `g`: it emits that event exactly once, and leaves
`g` dead with its id below the fresh counter. -/
theorem step_destroy {s : RodState K V} {g : Nat} (op : Op K V) (hwf : WF s)
    (hne0 : destroyCount (RodBTreeMap.step s op).2.2 g ≠ 0) :
    destroyCount (RodBTreeMap.step s op).2.2 g = 1 ∧
    guardFind (RodBTreeMap.step s op).1.guards g = none ∧
    g < (RodBTreeMap.step s op).1.next := by
  cases op with
  | insert k v => exact absurd rfl hne0
  | get k =>
    rw [RodBTreeMap.step] at hne0 ⊢
    rcases hg : RodBTreeMap.get s k with ⟨s1, r⟩
    rw [hg] at hne0
    cases r with
    | ok r0 => exact absurd rfl hne0
    | error e => exact absurd rfl hne0
  | clone g2 => exact absurd rfl hne0
  | release g2 =>
    rw [RodBTreeMap.step, RodBTreeMap.release] at hne0
    split at hne0
    · exact absurd rfl hne0
    · next info hfind =>
      split_ifs at hne0 with h3
      · have hstep : RodBTreeMap.step s (Op.release g2)
            = ((⟨btreeRemove s.index info.key, guardRemove s.guards g2,
                  s.next⟩ : RodState K V),
               Obs.unit,
               [Event.lockExclusive, Event.removeEntry info.key, Event.unlock,
                Event.destroyValue g2]) := by
          simp [RodBTreeMap.step, RodBTreeMap.release, hfind, h3]
        by_cases hgg : g2 = g
        · subst hgg
          rw [hstep]
          refine ⟨?_, guardFind_guardRemove_self hwf.gNodup,
            hwf.gLt (g2, info) (guardFind_mem hfind)⟩
          simp [destroyCount, List.countP_cons]
        · exfalso
          apply hne0
          simp [destroyCount, List.countP_cons, hgg]
      · exact absurd rfl hne0
  | len => exact absurd rfl hne0
  | isEmpty => exact absurd rfl hne0

/-- Over any run of client operations from a well-formed state, each guard's
value is destroyed at most once. -/
theorem run_destroy_le_one {s : RodState K V} (hwf : WF s)
    (ops : List (Op K V)) (g : Nat) :
    destroyCount (RodBTreeMap.run s ops).2.2 g ≤ 1 := by
  induction ops generalizing s with
  | nil => exact Nat.zero_le 1
  | cons op rest ih =>
    rw [RodBTreeMap.run]
    show destroyCount ((RodBTreeMap.step s op).2.2
      ++ (RodBTreeMap.run (RodBTreeMap.step s op).1 rest).2.2) g ≤ 1
    rw [destroyCount, List.countP_append]
    by_cases hz : destroyCount (RodBTreeMap.step s op).2.2 g = 0
    · rw [destroyCount] at hz
      rw [hz]
      have := ih (wf_step op hwf)
      rw [destroyCount] at this
      simpa using this
    · obtain ⟨h1, hd, hl⟩ := step_destroy op hwf hz
      rw [destroyCount] at h1
      rw [h1]
      have := run_no_destroy_of_dead (wf_step op hwf) hd hl rest
      rw [destroyCount] at this
      rw [this]

/-- **C6.** The teardown hook runs exactly once, at the release that makes
the strong count reach zero, and in this order: acquire the lock
exclusively, remove the Entry by key, release the lock, then destroy the
value — the Entry removal (position 1 of the trace) strictly precedes the
value destruction (position 3), never the other way round.  Releasing a
non-final handle (count > 1), or a handle id with no live allocation, emits
no teardown events; and over any run of client operations each guard's
value is destroyed at most once. -/
theorem C6_teardown_once_ordered :
    (∀ (s : RodState K V) (g : Nat) (info : GuardInfo K V),
      guardFind s.guards g = some info →
      (RodBTreeMap.release s g).2
        = if info.strong = 1 then
            [Event.lockExclusive, Event.removeEntry info.key, Event.unlock,
             Event.destroyValue g]
          else []) ∧
    (∀ (s : RodState K V) (g : Nat), guardFind s.guards g = none →
      (RodBTreeMap.release s g).2 = []) ∧
    (∀ s : RodState K V, WF s → ∀ (ops : List (Op K V)) (g : Nat),
      destroyCount (RodBTreeMap.run s ops).2.2 g ≤ 1) := by
  refine ⟨?_, ?_, ?_⟩
  · intro s g info hf
    simp only [RodBTreeMap.release, hf]
    split_ifs with h3 <;> rfl
  · intro s g hf
    simp only [RodBTreeMap.release, hf]
  · intro s hwf ops g
    exact run_destroy_le_one hwf ops g

/-- Witness for C6 at concrete inputs: the sole handle of map `{3 ↦ 5}`
(strong count 1) emits the four-event teardown trace in order; a run that
clones once and then releases three times destroys guard 0 exactly once. -/
theorem C6_witness :
    (RodBTreeMap.release sampleOne 0).2
      = [Event.lockExclusive, Event.removeEntry 3, Event.unlock,
         Event.destroyValue 0] ∧
    destroyCount
      (RodBTreeMap.run (RodBTreeMap.new : RodState Nat Nat)
        [Op.insert 3 5, Op.clone 0, Op.release 0, Op.release 0, Op.release 0]).2.2 0
      ≤ 1 := by
  constructor
  · have h := C6_teardown_once_ordered.1 sampleOne 0 ⟨3, 5, 1⟩ rfl
    simpa using h
  · exact C6_teardown_once_ordered.2.2 RodBTreeMap.new wf_new
      [Op.insert 3 5, Op.clone 0, Op.release 0, Op.release 0, Op.release 0] 0

/-- **C9** — the race the spec declares impossible is reachable in the
code.  Initial state: one entry `0 ↦ guard 0` whose guard has exactly one
outstanding handle.  Schedule `[releaser, getter, getter]`: the releaser's
`Arc::drop` decrements the strong count to zero WITHOUT holding the index
lock; before it acquires the write lock, the getter takes the read lock,
finds the entry still indexed, and its `Weak::upgrade` fails — the
`.expect` panic fires while the entry is still in the index.  The
complementary schedules behave as the spec describes: a `get` completing
before the decrement returns a valid handle (and the release then does not
tear down, the count being back above zero); a `get` after the full
teardown returns the empty result; and the lock does exclude a getter
while the write lock is held (that schedule is invalid). -/
theorem C9_race_upgrade_failure_reachable :
    (raceRun 0 0 (raceInit 0 0 7 : RaceState Nat Nat)
        [Tid.releaser, Tid.getter, Tid.getter]).map
      (fun s1 => (s1.res, btreeGet s1.index 0))
      = some (some GetOutcome.panicked, some 0) ∧
    (raceRun 0 0 (raceInit 0 0 7 : RaceState Nat Nat)
        [Tid.getter, Tid.getter, Tid.getter, Tid.releaser]).map (fun s1 => s1.res)
      = some (some (GetOutcome.validHandle 0)) ∧
    (raceRun 0 0 (raceInit 0 0 7 : RaceState Nat Nat)
        [Tid.releaser, Tid.releaser, Tid.releaser, Tid.releaser, Tid.releaser,
         Tid.getter, Tid.getter, Tid.getter]).map (fun s1 => s1.res)
      = some (some GetOutcome.absent) ∧
    raceRun 0 0 (raceInit 0 0 7 : RaceState Nat Nat)
        [Tid.releaser, Tid.releaser, Tid.getter] = none := by
  refine ⟨?_, ?_, ?_, ?_⟩ <;> rfl

end Claims

section HashLemmas

variable {K : Type} [DecidableEq K]

theorem hashGet_eq_none_iff {l : List (K × Nat)} {k : K} :
    hashGet l k = none ↔ k ∉ l.map Prod.fst := by
  induction l with
  | nil => simp [hashGet]
  | cons e rest ih =>
    rw [hashGet]
    split
    · next heq => simp [heq]
    · next hne2 =>
      rw [List.map_cons]
      constructor
      · intro hh hmem
        rcases List.mem_cons.1 hmem with h1 | h1
        · exact hne2 h1.symm
        · exact (ih.1 hh) h1
      · intro hh
        exact ih.2 (fun hm => hh (List.mem_cons_of_mem _ hm))

theorem hashInsert_of_get_some {l : List (K × Nat)} {k : K} {g g' : Nat}
    (h : hashGet l k = some g') : hashInsert l k g = l := by
  rw [hashInsert, h]
  rfl

theorem hashInsert_of_get_none {l : List (K × Nat)} {k : K} {g : Nat}
    (h : hashGet l k = none) : hashInsert l k g = (k, g) :: l := by
  rw [hashInsert, h]
  rfl

theorem hashGet_cons_self {l : List (K × Nat)} {k : K} {g : Nat} :
    hashGet ((k, g) :: l) k = some g := by
  rw [hashGet, if_pos rfl]

theorem hashGet_cons_ne {l : List (K × Nat)} {k k' : K} {g : Nat} (hne : k' ≠ k) :
    hashGet ((k, g) :: l) k' = hashGet l k' := by
  rw [hashGet, if_neg (fun hh => hne hh.symm)]

theorem hashRemove_sublist (l : List (K × Nat)) (k : K) :
    List.Sublist (hashRemove l k) l := by
  induction l with
  | nil => simp [hashRemove]
  | cons e rest ih =>
    rw [hashRemove]
    split
    · exact List.sublist_cons_self e rest
    · exact ih.cons₂ e

theorem hashRemove_of_get_none {l : List (K × Nat)} {k : K}
    (h : hashGet l k = none) : hashRemove l k = l := by
  induction l with
  | nil => simp [hashRemove]
  | cons e rest ih =>
    rw [hashGet] at h
    rw [hashRemove]
    split_ifs at h with h1
    · rw [if_neg h1, ih h]

theorem length_hashRemove_of_get_some {l : List (K × Nat)} {k : K} {g : Nat}
    (h : hashGet l k = some g) : (hashRemove l k).length + 1 = l.length := by
  induction l with
  | nil => simp [hashGet] at h
  | cons e rest ih =>
    rw [hashGet] at h
    rw [hashRemove]
    split_ifs at h with h1
    · rw [if_pos h1, List.length_cons]
    · rw [if_neg h1, List.length_cons, List.length_cons, ih h]

theorem hashGet_hashRemove_self {l : List (K × Nat)} {k : K}
    (hnd : (l.map Prod.fst).Nodup) : hashGet (hashRemove l k) k = none := by
  induction l with
  | nil => simp [hashRemove, hashGet]
  | cons e rest ih =>
    rw [List.map_cons, List.nodup_cons] at hnd
    rw [hashRemove]
    split
    · next heq =>
      exact hashGet_eq_none_iff.2 (heq ▸ hnd.1)
    · next hne =>
      rw [hashGet, if_neg hne]
      exact ih hnd.2

theorem hashGet_hashRemove_ne {l : List (K × Nat)} {k k' : K} (hne : k' ≠ k) :
    hashGet (hashRemove l k) k' = hashGet l k' := by
  induction l with
  | nil => simp [hashRemove]
  | cons e rest ih =>
    rw [hashRemove]
    split
    · next heq => rw [hashGet, if_neg (fun hh => hne (hh.symm.trans heq))]
    · rw [hashGet, hashGet]
      by_cases h1 : e.1 = k' <;> simp [h1, ih]

theorem isEmpty_eq_of_length_eq {α β : Type} {l1 : List α} {l2 : List β}
    (h : l1.length = l2.length) : l1.isEmpty = l2.isEmpty := by
  cases l1 <;> cases l2 <;> simp_all

end HashLemmas

section Coupling

variable {K V : Type} [LinearOrder K] [DecidableEq K]

theorem coupled_new :
    Coupled (RodBTreeMap.new : RodState K V) (RodHashMap.new : RodState K V) :=
  ⟨wf_new, List.nodup_nil, rfl, rfl, fun _ => rfl, rfl⟩

/-- One client operation preserves the ordered/hashed coupling and produces
identical observations and identical teardown-event traces. -/
theorem coupled_step {sb sh : RodState K V} (hc : Coupled sb sh) (op : Op K V) :
    Coupled (RodBTreeMap.step sb op).1 (RodHashMap.step sh op).1 ∧
    (RodHashMap.step sh op).2.1 = (RodBTreeMap.step sb op).2.1 ∧
    (RodHashMap.step sh op).2.2 = (RodBTreeMap.step sb op).2.2 := by
  obtain ⟨hwfB, hnd, hguards, hnext, hget, hlen⟩ := hc
  have hwfB2 := wf_step op hwfB
  cases op with
  | insert k v =>
    cases hbp : btreeGet sb.index k with
    | some g1 =>
      have hhp : hashGet sh.index k = some g1 := by rw [hget k, hbp]
      have hIb : btreeInsert sb.index k sb.next = sb.index := btreeInsert_of_get_some hbp
      have hIh : hashInsert sh.index k sh.next = sh.index := hashInsert_of_get_some hhp
      refine ⟨⟨hwfB2, ?_, ?_, ?_, ?_, ?_⟩, ?_, rfl⟩
      · show ((hashInsert sh.index k sh.next).map Prod.fst).Nodup
        rw [hIh]
        exact hnd
      · show (sh.next, (⟨k, v, 1⟩ : GuardInfo K V)) :: sh.guards
          = (sb.next, (⟨k, v, 1⟩ : GuardInfo K V)) :: sb.guards
        rw [hguards, hnext]
      · show sh.next + 1 = sb.next + 1
        rw [hnext]
      · intro k2
        show hashGet (hashInsert sh.index k sh.next) k2
          = btreeGet (btreeInsert sb.index k sb.next) k2
        rw [hIh, hIb]
        exact hget k2
      · show (hashInsert sh.index k sh.next).length
          = (btreeInsert sb.index k sb.next).length
        rw [hIh, hIb]
        exact hlen
      · show Obs.handle sh.next = Obs.handle sb.next
        rw [hnext]
    | none =>
      have hhp : hashGet sh.index k = none := by rw [hget k, hbp]
      have hIh : hashInsert sh.index k sh.next = (k, sh.next) :: sh.index :=
        hashInsert_of_get_none hhp
      refine ⟨⟨hwfB2, ?_, ?_, ?_, ?_, ?_⟩, ?_, rfl⟩
      · show ((hashInsert sh.index k sh.next).map Prod.fst).Nodup
        rw [hIh, List.map_cons, List.nodup_cons]
        exact ⟨hashGet_eq_none_iff.1 hhp, hnd⟩
      · show (sh.next, (⟨k, v, 1⟩ : GuardInfo K V)) :: sh.guards
          = (sb.next, (⟨k, v, 1⟩ : GuardInfo K V)) :: sb.guards
        rw [hguards, hnext]
      · show sh.next + 1 = sb.next + 1
        rw [hnext]
      · intro k2
        show hashGet (hashInsert sh.index k sh.next) k2
          = btreeGet (btreeInsert sb.index k sb.next) k2
        rw [hIh]
        by_cases hk2 : k2 = k
        · subst hk2
          rw [hashGet_cons_self, btreeGet_btreeInsert_self hbp, hnext]
        · rw [hashGet_cons_ne hk2, btreeGet_btreeInsert_ne hwfB.sorted hk2]
          exact hget k2
      · show (hashInsert sh.index k sh.next).length
          = (btreeInsert sb.index k sb.next).length
        rw [hIh, List.length_cons, length_btreeInsert_of_get_none hbp, hlen]
      · show Obs.handle sh.next = Obs.handle sb.next
        rw [hnext]
  | get k =>
    cases hbp : btreeGet sb.index k with
    | none =>
      have hhp : hashGet sh.index k = none := by rw [hget k, hbp]
      have hb : RodBTreeMap.get sb k = (sb, Except.ok none) := by
        simp only [RodBTreeMap.get, hbp]
      have hh : RodHashMap.get sh k = (sh, Except.ok none) := by
        simp only [RodHashMap.get, hhp]
      rw [RodBTreeMap.step, RodHashMap.step, hb, hh]
      exact ⟨⟨hwfB, hnd, hguards, hnext, hget, hlen⟩, rfl, rfl⟩
    | some g1 =>
      have hhp : hashGet sh.index k = some g1 := by rw [hget k, hbp]
      cases hgf : guardFind sb.guards g1 with
      | none =>
        have hgfh : guardFind sh.guards g1 = none := by rw [hguards]; exact hgf
        have hb : RodBTreeMap.get sb k
            = (sb, Except.error "Value was dropped, this should NOT still be accessible") := by
          simp only [RodBTreeMap.get, hbp, hgf]
        have hh : RodHashMap.get sh k
            = (sh, Except.error "If value is dropped this should NOT still be accessible") := by
          simp only [RodHashMap.get, hhp, hgfh]
        rw [RodBTreeMap.step, RodHashMap.step, hb, hh]
        exact ⟨⟨hwfB, hnd, hguards, hnext, hget, hlen⟩, rfl, rfl⟩
      | some info =>
        have hgfh : guardFind sh.guards g1 = some info := by rw [hguards]; exact hgf
        have hb : RodBTreeMap.get sb k
            = (⟨sb.index, guardSet sb.guards g1 ⟨info.key, info.value, info.strong + 1⟩,
                sb.next⟩, Except.ok (some g1)) := by
          simp only [RodBTreeMap.get, hbp, hgf]
        have hh : RodHashMap.get sh k
            = (⟨sh.index, guardSet sh.guards g1 ⟨info.key, info.value, info.strong + 1⟩,
                sh.next⟩, Except.ok (some g1)) := by
          simp only [RodHashMap.get, hhp, hgfh]
        rw [RodBTreeMap.step, RodHashMap.step, hb, hh]
        refine ⟨⟨wf_bump hwfB hgf, hnd, ?_, hnext, hget, hlen⟩, rfl, rfl⟩
        show guardSet sh.guards g1 ⟨info.key, info.value, info.strong + 1⟩
          = guardSet sb.guards g1 ⟨info.key, info.value, info.strong + 1⟩
        rw [hguards]
  | clone g =>
    cases hgf : guardFind sb.guards g with
    | none =>
      have hgfh : guardFind sh.guards g = none := by rw [hguards]; exact hgf
      have hb : RodBTreeMap.cloneGuard sb g = sb := by
        simp only [RodBTreeMap.cloneGuard, hgf]
      have hh : RodHashMap.cloneGuard sh g = sh := by
        simp only [RodHashMap.cloneGuard, hgfh]
      rw [RodBTreeMap.step, RodHashMap.step, hb, hh]
      exact ⟨⟨hwfB, hnd, hguards, hnext, hget, hlen⟩, rfl, rfl⟩
    | some info =>
      have hgfh : guardFind sh.guards g = some info := by rw [hguards]; exact hgf
      have hb : RodBTreeMap.cloneGuard sb g
          = ⟨sb.index, guardSet sb.guards g ⟨info.key, info.value, info.strong + 1⟩,
             sb.next⟩ := by
        simp only [RodBTreeMap.cloneGuard, hgf]
      have hh : RodHashMap.cloneGuard sh g
          = ⟨sh.index, guardSet sh.guards g ⟨info.key, info.value, info.strong + 1⟩,
             sh.next⟩ := by
        simp only [RodHashMap.cloneGuard, hgfh]
      rw [RodBTreeMap.step, RodHashMap.step, hb, hh]
      refine ⟨⟨wf_bump hwfB hgf, hnd, ?_, hnext, hget, hlen⟩, rfl, rfl⟩
      show guardSet sh.guards g ⟨info.key, info.value, info.strong + 1⟩
        = guardSet sb.guards g ⟨info.key, info.value, info.strong + 1⟩
      rw [hguards]
  | release g =>
    cases hgf : guardFind sb.guards g with
    | none =>
      have hgfh : guardFind sh.guards g = none := by rw [hguards]; exact hgf
      have hb : RodBTreeMap.release sb g = (sb, []) := by
        simp only [RodBTreeMap.release, hgf]
      have hh : RodHashMap.release sh g = (sh, []) := by
        simp only [RodHashMap.release, hgfh]
      rw [RodBTreeMap.step, RodHashMap.step, hb, hh]
      exact ⟨⟨hwfB, hnd, hguards, hnext, hget, hlen⟩, rfl, rfl⟩
    | some info =>
      have hgfh : guardFind sh.guards g = some info := by rw [hguards]; exact hgf
      by_cases hst : info.strong = 1
      · have hb : RodBTreeMap.release sb g
            = (⟨btreeRemove sb.index info.key, guardRemove sb.guards g, sb.next⟩,
               [Event.lockExclusive, Event.removeEntry info.key, Event.unlock,
                Event.destroyValue g]) := by
          simp only [RodBTreeMap.release, hgf, hst, if_true]
        have hh : RodHashMap.release sh g
            = (⟨hashRemove sh.index info.key, guardRemove sh.guards g, sh.next⟩,
               [Event.lockExclusive, Event.removeEntry info.key, Event.unlock,
                Event.destroyValue g]) := by
          simp only [RodHashMap.release, hgfh, hst, if_true]
        have hwfR : WF (⟨btreeRemove sb.index info.key, guardRemove sb.guards g,
            sb.next⟩ : RodState K V) := by
          have hq := wf_release (g := g) hwfB
          rw [hb] at hq
          exact hq
        rw [RodBTreeMap.step, RodHashMap.step, hb, hh]
        refine ⟨⟨hwfR, ?_, ?_, hnext, ?_, ?_⟩, rfl, rfl⟩
        · exact List.Nodup.sublist
            ((hashRemove_sublist sh.index info.key).map Prod.fst) hnd
        · show guardRemove sh.guards g = guardRemove sb.guards g
          rw [hguards]
        · intro k2
          show hashGet (hashRemove sh.index info.key) k2
            = btreeGet (btreeRemove sb.index info.key) k2
          by_cases hk2 : k2 = info.key
          · subst hk2
            rw [hashGet_hashRemove_self hnd, btreeGet_btreeRemove_self hwfB.sorted]
          · rw [hashGet_hashRemove_ne hk2, btreeGet_btreeRemove_ne hwfB.sorted hk2]
            exact hget k2
        · show (hashRemove sh.index info.key).length
            = (btreeRemove sb.index info.key).length
          cases hkp : btreeGet sb.index info.key with
          | some g2 =>
            have hkph : hashGet sh.index info.key = some g2 := by rw [hget _, hkp]
            have e1 := length_hashRemove_of_get_some hkph
            have e2 := length_btreeRemove_of_get_some hkp
            omega
          | none =>
            have hkph : hashGet sh.index info.key = none := by rw [hget _, hkp]
            rw [hashRemove_of_get_none hkph, btreeRemove_of_get_none hkp]
            exact hlen
      · have hb : RodBTreeMap.release sb g
            = (⟨sb.index, guardSet sb.guards g ⟨info.key, info.value, info.strong - 1⟩,
                sb.next⟩, []) := by
          simp only [RodBTreeMap.release, hgf, if_neg hst]
        have hh : RodHashMap.release sh g
            = (⟨sh.index, guardSet sh.guards g ⟨info.key, info.value, info.strong - 1⟩,
                sh.next⟩, []) := by
          simp only [RodHashMap.release, hgfh, if_neg hst]
        rw [RodBTreeMap.step, RodHashMap.step, hb, hh]
        refine ⟨⟨wf_bump hwfB hgf, hnd, ?_, hnext, hget, hlen⟩, rfl, rfl⟩
        show guardSet sh.guards g ⟨info.key, info.value, info.strong - 1⟩
          = guardSet sb.guards g ⟨info.key, info.value, info.strong - 1⟩
        rw [hguards]
  | len =>
    refine ⟨⟨hwfB, hnd, hguards, hnext, hget, hlen⟩, ?_, rfl⟩
    show Obs.size (RodHashMap.len sh) = Obs.size (RodBTreeMap.len sb)
    rw [RodHashMap.len, RodBTreeMap.len, hlen]
  | isEmpty =>
    refine ⟨⟨hwfB, hnd, hguards, hnext, hget, hlen⟩, ?_, rfl⟩
    show Obs.empt (RodHashMap.isEmpty sh) = Obs.empt (RodBTreeMap.isEmpty sb)
    rw [RodHashMap.isEmpty, RodBTreeMap.isEmpty, isEmpty_eq_of_length_eq hlen]

/-- A whole run preserves the coupling, with identical observation lists and
identical teardown-event traces. -/
theorem coupled_run {sb sh : RodState K V} (hc : Coupled sb sh)
    (ops : List (Op K V)) :
    (RodHashMap.run sh ops).2.1 = (RodBTreeMap.run sb ops).2.1 ∧
    (RodHashMap.run sh ops).2.2 = (RodBTreeMap.run sb ops).2.2 ∧
    Coupled (RodBTreeMap.run sb ops).1 (RodHashMap.run sh ops).1 := by
  induction ops generalizing sb sh with
  | nil => exact ⟨rfl, rfl, hc⟩
  | cons op rest ih =>
    obtain ⟨hcs, hobs, hev⟩ := coupled_step hc op
    obtain ⟨ho, he, hcr⟩ := ih hcs
    rw [RodBTreeMap.run, RodHashMap.run]
    exact ⟨by rw [ho, hobs], by rw [he, hev], hcr⟩

/-- **C8.** The ordered (BTree) and hashed variants satisfy the same
contract: for every sequence of `new`/`insert`/`get`/`len`/`is_empty`
operations, handle clones and handle releases, over keys admitting both a
total order and decidable equality, `RodBTreeMap` and `RodHashMap` produce
identical observation lists (handles returned by `insert`, results of
`get`, answers of `len` and `is_empty`) and identical teardown-event
traces. -/
theorem C8_ordered_hashed_same_contract (ops : List (Op K V)) :
    (RodHashMap.run (RodHashMap.new : RodState K V) ops).2.1
      = (RodBTreeMap.run (RodBTreeMap.new : RodState K V) ops).2.1 ∧
    (RodHashMap.run (RodHashMap.new : RodState K V) ops).2.2
      = (RodBTreeMap.run (RodBTreeMap.new : RodState K V) ops).2.2 := by
  obtain ⟨h1, h2, _⟩ := coupled_run coupled_new ops
  exact ⟨h1, h2⟩

end Coupling

end RodMap
